import Mathlib

/-
Shallow embedding of the CorrelationVector-rust library
(src/cvlib/src/correlationvector.rs, spinparams.rs,
correlationvectorparsererror.rs).

Rust strings are modelled as `List Char`; `str::len` (UTF-8 byte count)
is `byteLen`.  The `u32` counters are modelled as `Nat`; the one place
where a `u32` addition can overflow (the unchecked `prev + 1` in
`increment`) is modelled with an explicit bound check returning
`Option` (`none` models the debug-build panic).  Likewise `spin`
returns `Option` because `u64::try_from(ticks >> drop)` can panic.
Randomness (`generate_entropy`) and the clock (`SystemTime::now`) are
passed in as explicit arguments (`entropy`, `ticks`).
-/

/-- UTF-8 byte length of a Rust string slice (`str::len`). -/
def byteLen (cs : List Char) : Nat := (cs.map Char.utf8Size).sum

/-- Rust `str::split('.')`: always yields at least one (possibly empty)
segment; a separator between two positions yields an empty segment. -/
def splitOnDot : List Char → List (List Char)
  | [] => [[]]
  | c :: rest =>
    match splitOnDot rest with
    | [] => [[]]
    | h :: t => if c = '.' then [] :: h :: t else (c :: h) :: t

/-- Rust `str::trim_end_matches("!")`: drops every trailing `'!'`. -/
def trimEndBangs (cs : List Char) : List Char :=
  (cs.reverse.dropWhile (fun c => c = '!')).reverse

/-- Rust `str::ends_with("!")`. -/
def endsWithBang (cs : List Char) : Bool :=
  cs.getLast? = some '!'

/-- Decimal printing of a `Nat`, fuelled so that it reduces in the
kernel; `decRepr` below supplies sufficient fuel. -/
def decReprAux : Nat → Nat → List Char
  | 0, _ => []
  | fuel + 1, n =>
    if n < 10 then [Char.ofNat (48 + n)]
    else decReprAux fuel (n / 10) ++ [Char.ofNat (48 + n % 10)]

/-- Canonical decimal representation, the model of Rust
`u32::to_string`. -/
def decRepr (n : Nat) : List Char := decReprAux (n + 1) n

/-- Fuelled body of `serialized_length_of` (correlationvector.rs,
lines 174-182): `length = 1; while input > 10 { length += 1;
input /= 10 }`.  Note the source's `> 10` (not `>= 10`). -/
def slOfAux : Nat → Nat → Nat
  | 0, _ => 1
  | fuel + 1, n => if n > 10 then slOfAux fuel (n / 10) + 1 else 1

/-- `serialized_length_of` from the source, verbatim loop structure. -/
def serialized_length_of (input : Nat) : Nat := slOfAux input input

/-- Rust `str::parse::<u32>()`: optional leading `'+'`, then a
non-empty run of ASCII digits whose value fits in 32 bits. -/
def parse_u32 (cs : List Char) : Option Nat :=
  let ds := if cs.headD ' ' = '+' then cs.tail else cs
  if ds.isEmpty then none
  else if ds.all (fun c => c.isDigit) then
    let n := ds.foldl (fun a c => a * 10 + (c.toNat - 48)) 0
    if n < 2 ^ 32 then some n else none
  else none

/-- `parts[1..].iter().map(parse).collect::<Result<Vec<u32>, _>>()`:
first failure aborts the whole collection. -/
def parse_counters : List (List Char) → Option (List Nat)
  | [] => some []
  | s :: rest =>
    match parse_u32 s, parse_counters rest with
    | some n, some ns => some (n :: ns)
    | _, _ => none

/-- `Vec<String>::join(".")`. -/
def joinDot : List (List Char) → List Char
  | [] => []
  | [p] => p
  | p :: q :: rest => p ++ '.' :: joinDot (q :: rest)

/-- The error enum from correlationvectorparsererror.rs.  The
`ParseError` variant wraps the numeric parse failure (the spec calls
it `InvalidCounter`); the payload is dropped in the model. -/
inductive CorrelationVectorParseError where
  | Empty
  | MissingVector
  | ParseError
  | StringTooLongError
deriving DecidableEq

deriving instance DecidableEq for Except

/-- The CorrelationVector struct (correlationvector.rs, lines 19-24). -/
structure CorrelationVector where
  base : List Char
  vector : List Nat
  immutable : Bool
  serialized_length : Nat
deriving DecidableEq

/-- enum SpinCounterInterval (spinparams.rs). -/
inductive SpinCounterInterval where
  | Coarse
  | Fine
deriving DecidableEq

/-- `ticks_to_drop` (spinparams.rs, lines 21-26). -/
def ticks_to_drop : SpinCounterInterval → Nat
  | .Coarse => 24
  | .Fine => 16

/-- enum SpinCounterPeriodicity (spinparams.rs). -/
inductive SpinCounterPeriodicity where
  | None
  | Short
  | Medium
  | Long
deriving DecidableEq

/-- enum SpinEntropy (spinparams.rs). -/
inductive SpinEntropy where
  | None
  | One
  | Two
  | Three
  | Four
deriving DecidableEq

/-- struct SpinParams (spinparams.rs, lines 2-10). -/
structure SpinParams where
  spin_counter_interval : SpinCounterInterval
  spin_counter_periodicity : SpinCounterPeriodicity
  spin_entropy : SpinEntropy
deriving DecidableEq

/-- `entropy_bytes` (spinparams.rs, lines 61-69). -/
def entropy_bytes : SpinEntropy → Nat
  | .None => 0
  | .One => 1
  | .Two => 2
  | .Three => 3
  | .Four => 4

/-- `tick_periodicity_bits` (spinparams.rs, lines 40-49). -/
def tick_periodicity_bits (params : SpinParams) : Nat :=
  (match params.spin_counter_periodicity with
    | .None => 0
    | .Short => 16
    | .Medium => 24
    | .Long => 32) + entropy_bytes params.spin_entropy * 8

/-- The mask computed in `spin` (correlationvector.rs, lines 136-141):
`if bits == 64 { 0 } else { (1 << bits) - 1 }`. -/
def spin_mask (bits : Nat) : Nat := if bits = 64 then 0 else 2 ^ bits - 1

/-- `CorrelationVector::parse` (correlationvector.rs, lines 52-78).
`immutable` and `serialized_length` are computed from the already
trimmed string, exactly as the source does after shadowing `input`. -/
def parse (cs : List Char) :
    Except CorrelationVectorParseError CorrelationVector :=
  if byteLen cs > 128 ∨ (byteLen cs = 128 ∧ endsWithBang cs = false) then
    .error .StringTooLongError
  else
    let stripped := if endsWithBang cs then trimEndBangs cs else cs
    match splitOnDot stripped with
    | base :: first :: rest =>
      match parse_counters (first :: rest) with
      | some counters =>
        .ok ⟨base, counters, endsWithBang stripped, byteLen stripped⟩
      | none => .error .ParseError
    | [_] => .error .MissingVector
    | [] => .error .Empty

/-- `CorrelationVector::extend` (correlationvector.rs, lines 81-92). -/
def extend (v : CorrelationVector) : CorrelationVector :=
  if v.immutable then v
  else if v.serialized_length + 2 > 127 then
    ⟨v.base, v.vector, true, v.serialized_length⟩
  else
    ⟨v.base, v.vector ++ [0], false, v.serialized_length + 2⟩

/-- `CorrelationVector::increment` (correlationvector.rs, lines
95-114).  `none` models a panic: the `self.vector.len() - 1` underflow
on an empty vector, or the debug-build overflow of the unchecked
`prev + 1` when `prev = u32::MAX`. -/
def increment (v : CorrelationVector) : Option CorrelationVector :=
  if v.immutable then some v
  else if v.vector.isEmpty then none
  else
    let prev := v.vector.getLastD 0
    if prev % 10 = 9 then
      if v.serialized_length < 127 then
        if prev + 1 < 2 ^ 32 then
          some ⟨v.base, v.vector.dropLast ++ [prev + 1], false,
            v.serialized_length + 1⟩
        else none
      else some ⟨v.base, v.vector, true, v.serialized_length⟩
    else
      if prev + 1 < 2 ^ 32 then
        some ⟨v.base, v.vector.dropLast ++ [prev + 1], false,
          v.serialized_length⟩
      else none

/-- Final `0` append of `spin` (correlationvector.rs, lines 164-170),
identical to the tail of `extend`. -/
def spin_final_append (v : CorrelationVector) : CorrelationVector :=
  if v.serialized_length + 2 > 127 then
    ⟨v.base, v.vector, true, v.serialized_length⟩
  else
    ⟨v.base, v.vector ++ [0], false, v.serialized_length + 2⟩

/-- `CorrelationVector::spin` (correlationvector.rs, lines 118-171).
`entropy` is the byte list drawn by `generate_entropy`; `ticks` is the
current time in 100 ns units.  `none` models the
`u64::try_from(..).expect(..)` panic when the shifted tick count does
not fit in 64 bits.  The entropy fold performs the source's u64
`(value << 8) | byte`. -/
def spin (v : CorrelationVector) (params : SpinParams)
    (entropy : List Nat) (ticks : Nat) : Option CorrelationVector :=
  if v.immutable then some v
  else
    let ticksShifted := ticks >>> ticks_to_drop params.spin_counter_interval
    if ticksShifted < 2 ^ 64 then
      let value0 := entropy.foldl
        (fun a b => ((a % 2 ^ 56) <<< 8) ||| (b % 256)) ticksShifted
      let value := value0 &&& spin_mask (tick_periodicity_bits params)
      let first_32_bits := value % 2 ^ 32
      let ext1 := serialized_length_of first_32_bits + 1
      if v.serialized_length + ext1 > 127 then
        some ⟨v.base, v.vector, true, v.serialized_length⟩
      else
        let st1 : CorrelationVector :=
          ⟨v.base, v.vector ++ [first_32_bits], false,
            v.serialized_length + ext1⟩
        if tick_periodicity_bits params > 32 then
          let end_32_bits := (value >>> 32) % 2 ^ 32
          let ext2 := serialized_length_of end_32_bits + 1
          if st1.serialized_length + ext2 > 127 then
            some ⟨st1.base, st1.vector, true, st1.serialized_length⟩
          else
            some (spin_final_append
              ⟨st1.base, st1.vector ++ [end_32_bits], false,
                st1.serialized_length + ext2⟩)
        else
          some (spin_final_append st1)
    else none

/-- `Display::fmt` (correlationvector.rs, lines 190-206):
`base "." join(".") ["!"]`. -/
def fmt (v : CorrelationVector) : List Char :=
  v.base ++ ['.'] ++ joinDot (v.vector.map decRepr) ++
    (if v.immutable then ['!'] else [])

/-- `n` successive `extend` calls. -/
def extend_iter : Nat → CorrelationVector → CorrelationVector
  | 0, v => v
  | n + 1, v => extend_iter n (extend v)

/-- Byte length of the formatted form without the termination marker:
`len(base) + 1 + len(join("."))`. -/
def unterminated_len (v : CorrelationVector) : Nat :=
  byteLen v.base + 1 + byteLen (joinDot (v.vector.map decRepr))

/-! ## Concrete evaluations settling the scenario-style claims -/

/-- C1: the claim states that `serialized_length` always equals the
byte length of the formatted state for every reachable state.  The
state parsed from "base.19" satisfies this (7 = 7), but one
`increment` produces serialized_length 8 while the formatted string
"base.20" is 7 bytes: `increment` grows the length for any counter
ending in 9 even when no decimal digit is gained. -/
theorem serialized_length_desync_after_increment :
    parse ("base.19".toList) =
      Except.ok ⟨"base".toList, [19], false, 7⟩ ∧
    byteLen (fmt ⟨"base".toList, [19], false, 7⟩) = 7 ∧
    increment ⟨"base".toList, [19], false, 7⟩ =
      some ⟨"base".toList, [20], false, 8⟩ ∧
    byteLen (fmt ⟨"base".toList, [20], false, 8⟩) = 7 := by
  refine ⟨by decide, by decide, by decide, by decide⟩

/-- C2: `parse "base.0!"` succeeds with base "base" and vector [0] as
claimed, but returns immutable = false and serialized_length = 6 (the
post-strip length), because the source tests `ends_with("!")` and
takes `len()` on the already-trimmed shadowed `input`. -/
theorem parse_terminated_loses_immutable :
    parse ("base.0!".toList) =
      Except.ok ⟨"base".toList, [0], false, 6⟩ := by
  decide

/-- C5: `parse ""` returns MissingVector, not Empty, because Rust's
`"".split('.')` yields one empty segment, leaving the `[] => Empty`
arm unreachable; the other two scenario parts hold as claimed. -/
theorem parse_empty_missing_vector :
    parse ([] : List Char) =
      Except.error CorrelationVectorParseError.MissingVector ∧
    parse ("onlybase".toList) =
      Except.error CorrelationVectorParseError.MissingVector ∧
    parse ("base.abc".toList) =
      Except.error CorrelationVectorParseError.ParseError := by
  refine ⟨by decide, by decide, by decide⟩

set_option maxRecDepth 4000 in
/-- C4: with periodicity Long (32 bits) and four entropy bytes the
total width is 64, and the source then sets the mask to 0, so
`value &= mask` zeroes the composite instead of retaining the full
64-bit value: the appended counters are 0 and 0 even though the
composite value was 2^56 + 0xFFFFFFFF. -/
theorem spin_width64_zero_mask :
    tick_periodicity_bits
      ⟨SpinCounterInterval.Fine, SpinCounterPeriodicity.Long,
        SpinEntropy.Four⟩ = 64 ∧
    spin_mask 64 = 0 ∧
    spin ⟨['b'], [0], false, 3⟩
      ⟨SpinCounterInterval.Fine, SpinCounterPeriodicity.Long,
        SpinEntropy.Four⟩
      [255, 255, 255, 255] (2 ^ 40) =
      some ⟨['b'], [0, 0, 0, 0], false, 9⟩ := by
  refine ⟨by decide, by decide, by decide⟩

set_option maxRecDepth 8000 in
/-- C6: starting from a consistent 125-byte state, a spin whose masked
value is 10 appends ".10" (3 bytes) while `serialized_length_of 10 = 1`
accounts only 2 bytes, so the final terminated string is 129 bytes,
exceeding the claimed 128-byte ceiling. -/
theorem spin_format_exceeds_128 :
    serialized_length_of 10 = 1 ∧
    byteLen (fmt ⟨List.replicate 123 'a', [0], false, 125⟩) = 125 ∧
    spin ⟨List.replicate 123 'a', [0], false, 125⟩
      ⟨SpinCounterInterval.Fine, SpinCounterPeriodicity.Short,
        SpinEntropy.None⟩ [] (10 * 2 ^ 16) =
      some ⟨List.replicate 123 'a', [0, 10], true, 127⟩ ∧
    byteLen (fmt ⟨List.replicate 123 'a', [0, 10], true, 127⟩) = 129 := by
  refine ⟨by decide, by decide, by decide, by decide⟩

/-- C10: on a non-immutable vector whose last counter is u32::MAX,
`increment` reaches the unchecked `prev + 1`, which leaves the u32
range (a debug-build panic, modelled by `none`); it is neither dropped
nor turned into the immutable no-op. -/
theorem increment_overflow_panics :
    increment ⟨"base".toList, [7, 4294967295], false, 17⟩ = none := by
  decide

/-- C7 counterexample: the claim's third case asserts that for every
non-immutable vector whose last counter does not end in 9 the counter
increases by 1; at the last counter 4294967295 (which ends in 5) the
code instead panics on the unchecked `prev + 1` (modelled by `none`),
so no incremented result exists. -/
theorem increment_max_counter_no_increase :
    increment ⟨['b'], [4294967295], false, 12⟩ = none := by
  decide

/-- C3 counterexample: the immutable vector with base "base", vector
[0] and serialized_length 7 formats to the 7-byte string "base.0!",
but parsing that string yields immutable = false and
serialized_length = 6, so `parse (fmt v) ≠ ok v`. -/
theorem parse_format_immutable_not_id :
    byteLen (fmt ⟨"base".toList, [0], true, 7⟩) = 7 ∧
    parse (fmt ⟨"base".toList, [0], true, 7⟩) =
      Except.ok ⟨"base".toList, [0], false, 6⟩ ∧
    (⟨"base".toList, [0], false, 6⟩ : CorrelationVector) ≠
      ⟨"base".toList, [0], true, 7⟩ := by
  refine ⟨by decide, by decide, by decide⟩

/-! ## Helper lemmas -/

theorem digitChar_isDigit {d : Nat} (h : d < 10) :
    (Char.ofNat (48 + d)).isDigit = true := by
  interval_cases d <;> decide

theorem digitChar_toNat {d : Nat} (h : d < 10) :
    (Char.ofNat (48 + d)).toNat = 48 + d := by
  interval_cases d <;> decide

theorem isDigit_ne_dot {c : Char} (h : c.isDigit = true) : c ≠ '.' := by
  intro he
  subst he
  exact absurd h (by decide)

theorem isDigit_ne_plus {c : Char} (h : c.isDigit = true) : c ≠ '+' := by
  intro he
  subst he
  exact absurd h (by decide)

theorem isDigit_ne_bang {c : Char} (h : c.isDigit = true) : c ≠ '!' := by
  intro he
  subst he
  exact absurd h (by decide)

theorem decReprAux_fuel {f g n : Nat} (hf : n < f) (hg : n < g) :
    decReprAux f n = decReprAux g n := by
  induction f generalizing g n with
  | zero => omega
  | succ f ih =>
    cases g with
    | zero => omega
    | succ g =>
      simp only [decReprAux]
      split
      · rfl
      · have hlt : n / 10 < n := Nat.div_lt_self (by omega) (by omega)
        rw [@ih g (n / 10) (by omega) (by omega)]

theorem decRepr_eq (n : Nat) :
    decRepr n = if n < 10 then [Char.ofNat (48 + n)]
      else decRepr (n / 10) ++ [Char.ofNat (48 + n % 10)] := by
  have h1 : decRepr n = decReprAux (n + 1) n := rfl
  rw [h1]
  by_cases h10 : n < 10
  · simp only [decReprAux, if_pos h10]
  · simp only [decReprAux, if_neg h10]
    have hlt : n / 10 < n := Nat.div_lt_self (by omega) (by omega)
    have hf : decReprAux n (n / 10) = decReprAux (n / 10 + 1) (n / 10) :=
      decReprAux_fuel (by omega) (by omega)
    rw [hf]
    rfl

theorem decRepr_ne_nil (n : Nat) : decRepr n ≠ [] := by
  rw [decRepr_eq]
  split <;> simp

theorem decRepr_digits (n : Nat) : ∀ c ∈ decRepr n, c.isDigit = true := by
  induction n using Nat.strong_induction_on with
  | _ n ih =>
    rw [decRepr_eq]
    split
    · intro c hc
      rw [List.mem_singleton] at hc
      subst hc
      exact digitChar_isDigit (by omega)
    · intro c hc
      rcases List.mem_append.mp hc with hm | hm
      · exact ih (n / 10) (Nat.div_lt_self (by omega) (by omega)) c hm
      · rw [List.mem_singleton] at hm
        subst hm
        exact digitChar_isDigit (Nat.mod_lt n (by omega))

theorem decRepr_no_dot (n : Nat) : '.' ∉ decRepr n := by
  intro hmem
  exact isDigit_ne_dot (decRepr_digits n '.' hmem) rfl

theorem decRepr_foldl (n : Nat) :
    ∀ a : Nat, (decRepr n).foldl (fun a c => a * 10 + (c.toNat - 48)) a =
      a * 10 ^ (decRepr n).length + n := by
  induction n using Nat.strong_induction_on with
  | _ n ih =>
    intro a
    rw [decRepr_eq]
    split
    · simp [digitChar_toNat (by omega : n < 10)]
    · rw [List.foldl_append, ih (n / 10) (Nat.div_lt_self (by omega) (by omega)),
        List.length_append]
      simp only [List.foldl_cons, List.foldl_nil, List.length_cons,
        List.length_nil, Nat.zero_add]
      rw [digitChar_toNat (Nat.mod_lt n (by omega) : n % 10 < 10)]
      have hsub : 48 + n % 10 - 48 = n % 10 := by omega
      rw [hsub, Nat.add_mul, Nat.pow_succ, ← Nat.mul_assoc]
      have hdm := Nat.div_add_mod n 10
      omega

theorem splitOnDot_shape (cs : List Char) :
    ∃ h t, splitOnDot cs = h :: t := by
  induction cs with
  | nil => exact ⟨[], [], rfl⟩
  | cons c rest ih =>
    obtain ⟨h, t, hht⟩ := ih
    simp only [splitOnDot, hht]
    by_cases hc : c = '.'
    · exact ⟨[], h :: t, by simp [hc]⟩
    · exact ⟨c :: h, t, by simp [hc]⟩

theorem splitOnDot_no_dot (cs : List Char) (h : '.' ∉ cs) :
    splitOnDot cs = [cs] := by
  induction cs with
  | nil => rfl
  | cons c rest ih =>
    have hc : ¬ c = '.' := fun he => h (he ▸ List.mem_cons_self c rest)
    have hrest : '.' ∉ rest := fun hm => h (List.mem_cons_of_mem c hm)
    simp only [splitOnDot, ih hrest]
    simp [hc]

theorem splitOnDot_append (xs ys : List Char) (h : '.' ∉ xs) :
    splitOnDot (xs ++ '.' :: ys) = xs :: splitOnDot ys := by
  induction xs with
  | nil =>
    obtain ⟨a, b, hab⟩ := splitOnDot_shape ys
    simp [splitOnDot, hab]
  | cons c xs ih =>
    have hc : ¬ c = '.' := fun he => h (he ▸ List.mem_cons_self c xs)
    have hxs : '.' ∉ xs := fun hm => h (List.mem_cons_of_mem c hm)
    rw [List.cons_append]
    simp only [splitOnDot, ih hxs]
    simp [hc]

theorem splitOnDot_joinDot (ps : List (List Char)) (hne : ps ≠ [])
    (h : ∀ p ∈ ps, '.' ∉ p) : splitOnDot (joinDot ps) = ps := by
  induction ps with
  | nil => cases hne rfl
  | cons p ps ih =>
    cases ps with
    | nil => exact splitOnDot_no_dot p (h p (List.mem_cons_self p []))
    | cons q rest =>
      simp only [joinDot]
      rw [splitOnDot_append p _ (h p (List.mem_cons_self p _)),
        ih (by simp) (fun x hx => h x (List.mem_cons_of_mem p hx))]

theorem lastOfAppend {α : Type} (a b : List α) (h : b ≠ []) :
    (a ++ b).getLast? = b.getLast? :=
  List.getLast?_append_of_ne_nil a h

theorem getLast_some_of_ne_nil {α : Type} (l : List α) (h : l ≠ []) :
    ∃ c, l.getLast? = some c ∧ c ∈ l := by
  induction l with
  | nil => cases h rfl
  | cons x xs ih =>
    cases hxs : xs with
    | nil => exact ⟨x, rfl, List.mem_singleton_self x⟩
    | cons y t =>
      subst hxs
      obtain ⟨c, hc, hm⟩ := ih (by simp)
      exact ⟨c, by rw [List.getLast?_cons_cons]; exact hc,
        List.mem_cons_of_mem x hm⟩

theorem joinDot_getLast_digit (ps : List (List Char)) (h1 : ps ≠ [])
    (h2 : ∀ p ∈ ps, p ≠ [] ∧ ∀ c ∈ p, c.isDigit = true) :
    ∃ c, (joinDot ps).getLast? = some c ∧ c.isDigit = true := by
  induction ps with
  | nil => cases h1 rfl
  | cons p ps ih =>
    cases ps with
    | nil =>
      obtain ⟨hp, hd⟩ := h2 p (List.mem_cons_self p [])
      obtain ⟨c, hc, hm⟩ := getLast_some_of_ne_nil p hp
      exact ⟨c, hc, hd c hm⟩
    | cons q rest =>
      obtain ⟨c, hc, hcd⟩ :=
        ih (by simp) (fun x hx => h2 x (List.mem_cons_of_mem p hx))
      have hne : joinDot (q :: rest) ≠ [] := by
        intro hnil
        rw [hnil] at hc
        cases hc
      refine ⟨c, ?_, hcd⟩
      simp only [joinDot]
      rw [lastOfAppend p _ (by simp), show ('.' :: joinDot (q :: rest)) =
        ['.'] ++ joinDot (q :: rest) from rfl, lastOfAppend _ _ hne, hc]

theorem joinDot_concat (ps : List (List Char)) (q : List Char)
    (h : ps ≠ []) : joinDot (ps ++ [q]) = joinDot ps ++ '.' :: q := by
  induction ps with
  | nil => cases h rfl
  | cons p ps ih =>
    cases hps : ps with
    | nil => rfl
    | cons r rest =>
      subst hps
      have h1 : joinDot ((p :: r :: rest) ++ [q]) =
          p ++ '.' :: joinDot ((r :: rest) ++ [q]) := rfl
      have h2 : joinDot (p :: r :: rest) = p ++ '.' :: joinDot (r :: rest) :=
        rfl
      rw [h1, ih (by simp), h2]
      simp

theorem byteLen_append (a b : List Char) :
    byteLen (a ++ b) = byteLen a + byteLen b := by
  simp [byteLen]

theorem parse_u32_decRepr (n : Nat) (h : n < 2 ^ 32) :
    parse_u32 (decRepr n) = some n := by
  obtain ⟨c, rest, hcr⟩ : ∃ c rest, decRepr n = c :: rest := by
    cases hd : decRepr n with
    | nil => exact absurd hd (decRepr_ne_nil n)
    | cons c rest => exact ⟨c, rest, rfl⟩
  have hcd : c.isDigit = true :=
    decRepr_digits n c (by rw [hcr]; exact List.mem_cons_self c rest)
  have hall : (decRepr n).all (fun x => x.isDigit) = true :=
    List.all_eq_true.mpr (fun x hx => decRepr_digits n x hx)
  have hfold : (decRepr n).foldl (fun a c => a * 10 + (c.toNat - 48)) 0 = n := by
    have hf := decRepr_foldl n 0
    simpa using hf
  have hhead : (decRepr n).headD ' ' = c := by rw [hcr]; rfl
  have hne : (decRepr n).isEmpty = false := by
    rw [hcr]; rfl
  unfold parse_u32
  simp only [hhead, if_neg (isDigit_ne_plus hcd), hne, Bool.false_eq_true,
    if_false, hall, if_true, hfold, if_pos h]

theorem parse_counters_map (l : List Nat) (h : ∀ x ∈ l, x < 2 ^ 32) :
    parse_counters (l.map decRepr) = some l := by
  induction l with
  | nil => rfl
  | cons x xs ih =>
    simp only [List.map_cons, parse_counters]
    rw [parse_u32_decRepr x (h x (List.mem_cons_self x xs)),
      ih (fun y hy => h y (List.mem_cons_of_mem x hy))]

theorem fmt_of_not_immutable (v : CorrelationVector)
    (himm : v.immutable = false) :
    fmt v = v.base ++ '.' :: joinDot (v.vector.map decRepr) := by
  simp [fmt, himm]

theorem fmt_not_endsWithBang (v : CorrelationVector)
    (himm : v.immutable = false) (hvec : v.vector ≠ []) :
    endsWithBang (fmt v) = false := by
  have hps : v.vector.map decRepr ≠ [] := by
    simpa using hvec
  obtain ⟨c, hc, hcd⟩ := joinDot_getLast_digit (v.vector.map decRepr) hps
    (by
      intro p hp
      obtain ⟨m, _, rfl⟩ := List.mem_map.mp hp
      exact ⟨decRepr_ne_nil m, decRepr_digits m⟩)
  have hjne : joinDot (v.vector.map decRepr) ≠ [] := by
    intro hnil
    rw [hnil] at hc
    cases hc
  rw [fmt_of_not_immutable v himm]
  unfold endsWithBang
  rw [lastOfAppend _ _ (by simp),
    show ('.' :: joinDot (v.vector.map decRepr)) =
      ['.'] ++ joinDot (v.vector.map decRepr) from rfl,
    lastOfAppend _ _ hjne, hc]
  simp [isDigit_ne_bang hcd]

/-- C3 (amended): for every non-immutable CorrelationVector whose base
contains no '.', whose vector is non-empty with entries in u32 range,
whose serialized_length equals the byte length of its formatted
string, and whose formatted string is at most 127 bytes,
parse (fmt v) succeeds and returns v in all four fields. -/
theorem parse_format_roundtrip (v : CorrelationVector)
    (himm : v.immutable = false) (hvec : v.vector ≠ [])
    (hbase : '.' ∉ v.base) (hnum : ∀ x ∈ v.vector, x < 2 ^ 32)
    (hsl : v.serialized_length = byteLen (fmt v))
    (hlen : byteLen (fmt v) ≤ 127) :
    parse (fmt v) = Except.ok v := by
  have hbang : endsWithBang (fmt v) = false := fmt_not_endsWithBang v himm hvec
  have hfmt : fmt v = v.base ++ '.' :: joinDot (v.vector.map decRepr) :=
    fmt_of_not_immutable v himm
  have hnodot : ∀ p ∈ v.vector.map decRepr, '.' ∉ p := by
    intro p hp
    obtain ⟨m, _, rfl⟩ := List.mem_map.mp hp
    exact decRepr_no_dot m
  have hps : v.vector.map decRepr ≠ [] := by simpa using hvec
  have hsplit : splitOnDot (fmt v) = v.base :: v.vector.map decRepr := by
    rw [hfmt, splitOnDot_append _ _ hbase, splitOnDot_joinDot _ hps hnodot]
  obtain ⟨b, vec, imm, sl⟩ := v
  simp only at himm hsl ⊢
  subst himm
  cases vec with
  | nil => exact absurd rfl hvec
  | cons x xs =>
    unfold parse
    rw [if_neg (by
      rintro (hh | ⟨hh, _⟩) <;> omega)]
    rw [hbang]
    simp only [Bool.false_eq_true, if_false]
    rw [hsplit]
    simp only [List.map_cons]
    rw [show parse_counters (decRepr x :: xs.map decRepr) =
        parse_counters ((x :: xs).map decRepr) from rfl,
      parse_counters_map (x :: xs) hnum, hbang]
    show Except.ok (⟨b, x :: xs, false,
        byteLen (fmt ⟨b, x :: xs, false, sl⟩)⟩ : CorrelationVector) =
      Except.ok (⟨b, x :: xs, false, sl⟩ : CorrelationVector)
    rw [← hsl]

/-- C3 witness at the vector with base "base", vector [0] and
serialized_length 6. -/
theorem parse_format_roundtrip_witness :
    parse (fmt ⟨"base".toList, [0], false, 6⟩) =
      Except.ok ⟨"base".toList, [0], false, 6⟩ :=
  parse_format_roundtrip ⟨"base".toList, [0], false, 6⟩ rfl (by decide)
    (by decide) (by decide) (by decide) (by decide)

/-- C7 (amended): behaviour of increment on a non-immutable,
non-empty vector whose last counter is below u32::MAX. -/
theorem increment_cases (v : CorrelationVector)
    (himm : v.immutable = false) (hvec : v.vector ≠ [])
    (hmax : v.vector.getLastD 0 < 4294967295) :
    (v.vector.getLastD 0 % 10 = 9 ∧ v.serialized_length + 1 ≤ 127 →
      increment v = some ⟨v.base,
        v.vector.dropLast ++ [v.vector.getLastD 0 + 1], false,
        v.serialized_length + 1⟩) ∧
    (v.vector.getLastD 0 % 10 = 9 ∧ v.serialized_length + 1 > 127 →
      increment v = some ⟨v.base, v.vector, true, v.serialized_length⟩) ∧
    (v.vector.getLastD 0 % 10 ≠ 9 →
      increment v = some ⟨v.base,
        v.vector.dropLast ++ [v.vector.getLastD 0 + 1], false,
        v.serialized_length⟩) := by
  have hempty : v.vector.isEmpty = false := by
    cases hv : v.vector with
    | nil => exact absurd hv hvec
    | cons => rfl
  have hlt : v.vector.getLast?.getD 0 + 1 < 4294967296 := by
    have hg : v.vector.getLastD 0 = v.vector.getLast?.getD 0 := by
      rw [List.getLastD_eq_getLast?]
    omega
  refine ⟨fun ⟨h9, hle⟩ => ?_, fun ⟨h9, hgt⟩ => ?_, fun h9 => ?_⟩
  · rw [List.getLastD_eq_getLast?] at h9
    simp [increment, himm, hempty, h9,
      show v.serialized_length < 127 by omega, hlt,
      List.getLastD_eq_getLast?]
  · rw [List.getLastD_eq_getLast?] at h9
    simp [increment, himm, hempty, h9,
      show ¬ v.serialized_length < 127 by omega, List.getLastD_eq_getLast?]
  · rw [List.getLastD_eq_getLast?] at h9
    simp [increment, himm, hempty, h9, hlt, List.getLastD_eq_getLast?]

/-- C7 witness at the digit-carry case 19 → 20. -/
theorem increment_cases_witness :
    ((19 : Nat) % 10 = 9 ∧ 7 + 1 ≤ 127) ∧
    increment ⟨['b'], [19], false, 7⟩ = some ⟨['b'], [20], false, 8⟩ :=
  ⟨by decide, by
    have h := (increment_cases ⟨['b'], [19], false, 7⟩ rfl (by decide)
      (by decide)).1
    exact h ⟨by decide, by decide⟩⟩

/-- C8: an immutable vector is frozen: extend, increment and spin all
return it unchanged, and none of the three operations ever turns
`immutable` from true back to false. -/
theorem immutable_is_frozen (v : CorrelationVector) :
    (v.immutable = true → extend v = v ∧ increment v = some v ∧
      ∀ params entropy ticks, spin v params entropy ticks = some v) ∧
    ((extend v).immutable = false → v.immutable = false) ∧
    (∀ w, increment v = some w → w.immutable = false →
      v.immutable = false) ∧
    (∀ params entropy ticks w, spin v params entropy ticks = some w →
      w.immutable = false → v.immutable = false) := by
  cases hv : v.immutable with
  | false =>
    exact ⟨fun h => by simp at h, fun _ => rfl, fun _ _ _ => rfl,
      fun _ _ _ _ _ _ => rfl⟩
  | true =>
    have hext : extend v = v := by simp [extend, hv]
    have hinc : increment v = some v := by simp [increment, hv]
    have hspin : ∀ params entropy ticks,
        spin v params entropy ticks = some v :=
      fun params entropy ticks => by simp [spin, hv]
    refine ⟨fun _ => ⟨hext, hinc, hspin⟩, ?_, ?_, ?_⟩
    · rw [hext, hv]
      exact id
    · intro w hw hwi
      rw [hinc] at hw
      cases hw
      rw [hv] at hwi
      exact hwi
    · intro params entropy ticks w hw hwi
      rw [hspin params entropy ticks] at hw
      cases hw
      rw [hv] at hwi
      exact hwi

/-- C8 witness at a concrete immutable vector. -/
theorem immutable_is_frozen_witness :
    extend ⟨['b'], [0], true, 3⟩ = ⟨['b'], [0], true, 3⟩ ∧
    increment ⟨['b'], [0], true, 3⟩ = some ⟨['b'], [0], true, 3⟩ ∧
    spin ⟨['b'], [0], true, 3⟩
      ⟨SpinCounterInterval.Coarse, SpinCounterPeriodicity.Short,
        SpinEntropy.One⟩ [5] 1000 = some ⟨['b'], [0], true, 3⟩ := by
  obtain ⟨h1, h2, h3⟩ := (immutable_is_frozen ⟨['b'], [0], true, 3⟩).1 rfl
  exact ⟨h1, h2, h3 _ _ _⟩

theorem extend_of_immutable (v : CorrelationVector)
    (h : v.immutable = true) : extend v = v := by
  simp [extend, h]

theorem extend_iter_add (m n : Nat) (v : CorrelationVector) :
    extend_iter (m + n) v = extend_iter n (extend_iter m v) := by
  induction m generalizing v with
  | zero => rw [Nat.zero_add]; rfl
  | succ m ih =>
    rw [Nat.succ_add]
    exact ih (extend v)

theorem extend_iter_of_immutable (n : Nat) (v : CorrelationVector)
    (h : v.immutable = true) : extend_iter n v = v := by
  induction n with
  | zero => rfl
  | succ n ih =>
    show extend_iter n (extend v) = v
    rw [extend_of_immutable v h]
    exact ih

theorem extend_preserves_good (v : CorrelationVector)
    (hvec : v.vector ≠ []) (hsl : v.serialized_length = unterminated_len v)
    (hb : v.serialized_length ≤ 127) :
    (extend v).vector ≠ [] ∧
    (extend v).serialized_length = unterminated_len (extend v) ∧
    (extend v).serialized_length ≤ 127 := by
  obtain ⟨b, vec, imm, sl⟩ := v
  simp only at hvec hsl hb
  cases imm with
  | true =>
    have hid : extend ⟨b, vec, true, sl⟩ = ⟨b, vec, true, sl⟩ :=
      extend_of_immutable _ rfl
    rw [hid]
    exact ⟨hvec, hsl, hb⟩
  | false =>
    by_cases hov : sl + 2 > 127
    · have hx : extend ⟨b, vec, false, sl⟩ = ⟨b, vec, true, sl⟩ := by
        simp [extend, hov]
      rw [hx]
      exact ⟨hvec, hsl, hb⟩
    · have hx : extend ⟨b, vec, false, sl⟩ = ⟨b, vec ++ [0], false, sl + 2⟩ := by
        simp [extend, hov]
      rw [hx]
      refine ⟨by simp, ?_, by show sl + 2 ≤ 127; omega⟩
      have hmapne : vec.map decRepr ≠ [] := by simpa using hvec
      have hun : unterminated_len ⟨b, vec ++ [0], false, sl + 2⟩ =
          unterminated_len ⟨b, vec, false, sl⟩ + 2 := by
        unfold unterminated_len
        simp only [List.map_append, List.map_cons, List.map_nil]
        rw [joinDot_concat _ _ hmapne,
          show decRepr 0 = ['0'] from by decide,
          show (joinDot (vec.map decRepr)) ++ '.' :: ['0'] =
            (joinDot (vec.map decRepr)) ++ ['.', '0'] from rfl,
          byteLen_append,
          show byteLen ['.', '0'] = 2 from by decide]
        omega
      rw [hun]
      show sl + 2 = unterminated_len ⟨b, vec, false, sl⟩ + 2
      omega

theorem extend_iter_good (n : Nat) (v : CorrelationVector)
    (hvec : v.vector ≠ []) (hsl : v.serialized_length = unterminated_len v)
    (hb : v.serialized_length ≤ 127) :
    (extend_iter n v).vector ≠ [] ∧
    (extend_iter n v).serialized_length = unterminated_len (extend_iter n v) ∧
    (extend_iter n v).serialized_length ≤ 127 := by
  induction n generalizing v with
  | zero => exact ⟨hvec, hsl, hb⟩
  | succ n ih =>
    obtain ⟨h1, h2, h3⟩ := extend_preserves_good v hvec hsl hb
    exact ih (extend v) h1 h2 h3

theorem extend_sl_growth (n : Nat) (v : CorrelationVector)
    (h : (extend_iter n v).immutable = false) :
    (extend_iter n v).serialized_length = v.serialized_length + 2 * n ∧
    v.immutable = false := by
  induction n generalizing v with
  | zero =>
    refine ⟨?_, h⟩
    show v.serialized_length = v.serialized_length + 2 * 0
    omega
  | succ n ih =>
    have h' : (extend_iter n (extend v)).immutable = false := h
    obtain ⟨hsl, himm⟩ := ih (extend v) h'
    cases hvi : v.immutable with
    | true =>
      rw [extend_of_immutable v hvi, hvi] at himm
      cases himm
    | false =>
      by_cases hov : v.serialized_length + 2 > 127
      · have hx : (extend v).immutable = true := by
          simp [extend, hvi, hov]
        rw [hx] at himm
        cases himm
      · have hx : extend v =
            ⟨v.base, v.vector ++ [0], false, v.serialized_length + 2⟩ := by
          simp [extend, hvi, hov]
        refine ⟨?_, rfl⟩
        rw [hx] at hsl
        calc (extend_iter (n + 1) v).serialized_length
            = (extend_iter n (extend v)).serialized_length := rfl
          _ = v.serialized_length + 2 + 2 * n := by rw [hx]; exact hsl
          _ = v.serialized_length + 2 * (n + 1) := by omega

theorem extend_iter_64_immutable (v : CorrelationVector)
    (hvec : v.vector ≠ []) (hsl : v.serialized_length = unterminated_len v)
    (hb : v.serialized_length ≤ 127) :
    (extend_iter 64 v).immutable = true := by
  cases him : (extend_iter 64 v).immutable with
  | true => rfl
  | false =>
    obtain ⟨hgrow, _⟩ := extend_sl_growth 64 v him
    obtain ⟨_, _, hle⟩ := extend_iter_good 64 v hvec hsl hb
    omega

theorem fmt_byteLen (v : CorrelationVector) :
    byteLen (fmt v) =
      unterminated_len v + (if v.immutable = true then 1 else 0) := by
  unfold fmt unterminated_len
  rw [byteLen_append, byteLen_append, byteLen_append]
  have hd : byteLen ['.'] = 1 := by decide
  have hbg : byteLen ['!'] = 1 := by decide
  have hnil : byteLen [] = 0 := rfl
  cases hv : v.immutable with
  | true =>
    rw [if_pos rfl, if_pos rfl]
    omega
  | false =>
    rw [if_neg (by simp), if_neg (by simp)]
    omega

/-- C9 (amended): from any vector satisfying the data-model
invariants (vector non-empty, serialized_length equal to the
unterminated formatted length and at most 127), some finite number of
extend calls makes the vector immutable; all further extends are
no-ops, and the final formatted string is at most 128 bytes and ends
with the termination marker.  The restriction to synchronized states
is forced: desynchronized mutable states reachable through the
serialized_length_of undercount of spin escape the 128-byte bound
(see the counterexample below). -/
theorem extend_eventually_immutable (v : CorrelationVector)
    (hvec : v.vector ≠ [])
    (hsl : v.serialized_length = unterminated_len v)
    (hb : v.serialized_length ≤ 127) :
    ∃ n, (extend_iter n v).immutable = true ∧
      (∀ k, extend_iter (n + k) v = extend_iter n v) ∧
      byteLen (fmt (extend_iter n v)) ≤ 128 ∧
      (fmt (extend_iter n v)).getLast? = some '!' := by
  have him := extend_iter_64_immutable v hvec hsl hb
  obtain ⟨hv64, hsl64, hle64⟩ := extend_iter_good 64 v hvec hsl hb
  refine ⟨64, him, ?_, ?_, ?_⟩
  · intro k
    rw [extend_iter_add 64 k v, extend_iter_of_immutable k _ him]
  · rw [fmt_byteLen, if_pos him]
    omega
  · unfold fmt
    rw [if_pos him, lastOfAppend _ _ (by simp)]
    rfl

/-- C9 witness at a minimal concrete vector. -/
theorem extend_eventually_immutable_witness :
    ((⟨['b'], [0], false, 3⟩ : CorrelationVector).vector ≠ [] ∧
      (3 : Nat) = unterminated_len ⟨['b'], [0], false, 3⟩ ∧
      (3 : Nat) ≤ 127) ∧
    (∃ n, (extend_iter n ⟨['b'], [0], false, 3⟩).immutable = true ∧
      (∀ k, extend_iter (n + k) ⟨['b'], [0], false, 3⟩ =
        extend_iter n ⟨['b'], [0], false, 3⟩) ∧
      byteLen (fmt (extend_iter n ⟨['b'], [0], false, 3⟩)) ≤ 128 ∧
      (fmt (extend_iter n ⟨['b'], [0], false, 3⟩)).getLast? = some '!') :=
  ⟨⟨by decide, by decide, by decide⟩,
    extend_eventually_immutable ⟨['b'], [0], false, 3⟩ (by decide)
      (by decide) (by decide)⟩

set_option maxRecDepth 16000 in
/-- C9 counterexample: the original claim quantifies over every
CorrelationVector and asserts the final formatted string never
exceeds 128 bytes.  The state ⟨b, [0, 10, 0], false, 7⟩ is reachable:
parse "b.0" gives ⟨b, [0], false, 3⟩ and one spin whose masked
composite is 10 appends counters 10 and 0 while accounting only 2
bytes for ".10" (serialized_length_of 10 = 1), leaving
serialized_length 7 for an 8-byte string.  61 extends later the
vector is immutable and its formatted string is 129 bytes — and it is
final, since a further extend is a no-op. -/
theorem extend_exceeds_128_after_spin_desync :
    parse ("b.0".toList) = Except.ok ⟨['b'], [0], false, 3⟩ ∧
    spin ⟨['b'], [0], false, 3⟩
      ⟨SpinCounterInterval.Fine, SpinCounterPeriodicity.Short,
        SpinEntropy.None⟩ [] (10 * 2 ^ 16) =
      some ⟨['b'], [0, 10, 0], false, 7⟩ ∧
    byteLen (fmt ⟨['b'], [0, 10, 0], false, 7⟩) = 8 ∧
    (extend_iter 61 ⟨['b'], [0, 10, 0], false, 7⟩).immutable = true ∧
    byteLen (fmt (extend_iter 61 ⟨['b'], [0, 10, 0], false, 7⟩)) = 129 ∧
    extend (extend_iter 61 ⟨['b'], [0, 10, 0], false, 7⟩) =
      extend_iter 61 ⟨['b'], [0, 10, 0], false, 7⟩ := by
  refine ⟨by decide, by decide, by decide, by decide, by decide, by decide⟩
